import Mathlib

/-!
Verification development for a convenience layer over a document-database
client library (source: src/index.ts).  The original logic embedded here:

* `parseFieldPath` — the recursive dotted-field-path shaper;
* the field-request loop of `getDoc` (accumulate shaped paths by object spread);
* `writeBatch` — the chunked batch writer (lodash `chunk` with size 500,
  per-entry dispatch on the write kind, `Promise.all` over the commits);
* `listenDoc` / `listenDocs` — snapshot-listener wrappers;
* `delDoc` — deletion passthrough.

Machine strings are embedded as `List Char`; JavaScript objects produced by
the shaper are association lists in insertion order; thrown `TypeError`s
(from indexing `batches[0]` on an empty array) are modelled with `Except`.
-/

/-- Values appearing in shaped results: either an opaque retrieved value
(represented by an integer tag) or a JavaScript object, i.e. an ordered
association list from keys to values. -/
inductive Val where
  | leaf (n : Int)
  | obj (fields : List (List Char × Val))

/-- Embedding of JavaScript `fp.split('.')` on `List Char`: split at every
dot, keeping empty segments; the result is always non-empty and `""` splits
to `[""]`. -/
def splitDot : List Char → List (List Char)
  | [] => [[]]
  | c :: cs =>
    match splitDot cs with
    | [] => [[]]
    | s :: ss => if c = '.' then [] :: s :: ss else (c :: s) :: ss

/-- Embedding of JavaScript `segments.join('.')`. -/
def joinDot : List (List Char) → List Char
  | [] => []
  | [s] => s
  | s :: ss => s ++ '.' :: joinDot ss

theorem splitDot_ne_nil (cs : List Char) : splitDot cs ≠ [] := by
  cases cs with
  | nil => simp [splitDot]
  | cons c cs =>
    simp only [splitDot]
    cases h : splitDot cs with
    | nil => simp
    | cons s ss =>
      by_cases hc : c = '.' <;> simp [hc]

theorem joinDot_cons_cons (s t : List Char) (ss : List (List Char)) :
    joinDot (s :: t :: ss) = s ++ '.' :: joinDot (t :: ss) := rfl

theorem splitDot_cons_eq (c : Char) (cs t : List Char) (ts : List (List Char))
    (h : splitDot cs = t :: ts) :
    splitDot (c :: cs) = if c = '.' then [] :: t :: ts else (c :: t) :: ts := by
  simp only [splitDot, h]

theorem joinDot_splitDot (cs : List Char) : joinDot (splitDot cs) = cs := by
  induction cs with
  | nil => rfl
  | cons c cs ih =>
    simp only [splitDot]
    cases h : splitDot cs with
    | nil => exact absurd h (splitDot_ne_nil cs)
    | cons s ss =>
      rw [h] at ih
      by_cases hc : c = '.'
      · subst hc
        simpa [joinDot_cons_cons] using ih
      · simp only [if_neg hc]
        cases ss with
        | nil => simpa [joinDot] using ih
        | cons t ts => simpa [joinDot_cons_cons] using ih

theorem splitDot_no_dot (cs : List Char) : ∀ s ∈ splitDot cs, '.' ∉ s := by
  induction cs with
  | nil => intro s hs; simp [splitDot] at hs; simp [hs]
  | cons c cs ih =>
    intro s hs
    cases h : splitDot cs with
    | nil => exact absurd h (splitDot_ne_nil cs)
    | cons t ts =>
      rw [splitDot_cons_eq c cs t ts h] at hs
      rw [h] at ih
      by_cases hc : c = '.'
      · rw [if_pos hc] at hs
        rcases List.mem_cons.mp hs with hs | hs
        · subst hs; simp
        · exact ih s hs
      · rw [if_neg hc] at hs
        rcases List.mem_cons.mp hs with hs | hs
        · subst hs
          intro hmem
          rcases List.mem_cons.mp hmem with hm | hm
          · exact hc hm.symm
          · exact ih t (List.mem_cons_self t ts) hm
        · exact ih s (List.mem_cons_of_mem t hs)

theorem splitDot_of_no_dot (s : List Char) (h : '.' ∉ s) : splitDot s = [s] := by
  induction s with
  | nil => rfl
  | cons c cs ih =>
    have hc : c ≠ '.' := fun hc => h (by simp [hc])
    have hcs : '.' ∉ cs := fun hm => h (by simp [hm])
    simp only [splitDot, ih hcs]
    simp [fun hc2 => hc hc2]

theorem splitDot_append_dot (s t : List Char) (h : '.' ∉ s) :
    splitDot (s ++ '.' :: t) = s :: splitDot t := by
  induction s with
  | nil =>
    simp only [List.nil_append, splitDot]
    cases ht : splitDot t with
    | nil => exact absurd ht (splitDot_ne_nil t)
    | cons u us => simp
  | cons c cs ih =>
    have hc : c ≠ '.' := fun hc2 => h (by simp [hc2])
    have hcs : '.' ∉ cs := fun hm => h (by simp [hm])
    have heq : splitDot (c :: cs ++ '.' :: t) =
        match splitDot (cs ++ '.' :: t) with
        | [] => [[]]
        | u :: us => if c = '.' then [] :: u :: us else (c :: u) :: us := rfl
    rw [heq, ih hcs]
    simp [hc]

theorem splitDot_joinDot (ss : List (List Char)) (hne : ss ≠ [])
    (hdf : ∀ s ∈ ss, '.' ∉ s) : splitDot (joinDot ss) = ss := by
  induction ss with
  | nil => exact absurd rfl hne
  | cons s ts ih =>
    cases ts with
    | nil => simpa [joinDot] using splitDot_of_no_dot s (hdf s (by simp))
    | cons t us =>
      rw [joinDot_cons_cons]
      rw [splitDot_append_dot s _ (hdf s (by simp))]
      rw [ih (by simp) (fun u hu => hdf u (by simp [hu]))]

theorem joinDot_length_lt (fp f0 : List Char) (rest : List (List Char))
    (h : splitDot fp = f0 :: rest) (hr : rest ≠ []) :
    (joinDot rest).length < fp.length := by
  have hfp : fp = joinDot (f0 :: rest) := by
    rw [← h, joinDot_splitDot]
  cases rest with
  | nil => exact absurd rfl hr
  | cons t ts =>
    rw [hfp, joinDot_cons_cons]
    simp only [List.length_append, List.length_cons]
    omega

theorem joinDot_tail_length_lt (fp : List Char) (hr : (splitDot fp).tail ≠ []) :
    (joinDot (splitDot fp).tail).length < fp.length := by
  cases h : splitDot fp with
  | nil => exact absurd h (splitDot_ne_nil fp)
  | cons f0 rest =>
    rw [h] at hr
    simp only [List.tail_cons] at hr
    simpa using joinDot_length_lt fp f0 rest h hr

/-- Embedding of the source function `parseFieldPath(fp, data)`: with
`fields = fp.split('.')`, the result binds `fields[0]` (here `headI` of the
split, which is never empty) to `data`; when `fields.slice(1)` (here `tail`)
is non-empty, the binding is instead the recursive shaping of the re-joined
remaining segments, mirroring `fields.slice(1).join('.')`.  The returned
JavaScript object is the association list of its single binding. -/
def parseFieldPath (fp : List Char) (data : Val) : List (List Char × Val) :=
  if hr : (splitDot fp).tail ≠ [] then
    [((splitDot fp).headI, Val.obj (parseFieldPath (joinDot (splitDot fp).tail) data))]
  else
    [((splitDot fp).headI, data)]
termination_by fp.length
decreasing_by
  exact joinDot_tail_length_lt fp hr

/-- Written from the spec's words (§4.1): the nested mapping
`[s0, s1, ..., sn] ↦ {s0: {s1: ... {sn: v}}}`, to be compared with the
source's `parseFieldPath`. -/
def specNest : List (List Char) → Val → List (List Char × Val)
  | [], _ => []
  | [k], v => [(k, v)]
  | k :: t :: ts, v => [(k, Val.obj (specNest (t :: ts) v))]

/-- First value bound to key `k` in an association list. -/
def lookupKey (k : List Char) : List (List Char × Val) → Option Val
  | [] => none
  | (k2, v) :: rest => if k2 = k then some v else lookupKey k rest

/-- Follow a chain of keys through nested objects, returning the value found
at the end of the chain (so a `some` result means the value sits at nesting
depth equal to the length of the key list). -/
def getPath : List (List Char) → List (List Char × Val) → Option Val
  | [], _ => none
  | [k], o => lookupKey k o
  | k :: t :: ts, o =>
    match lookupKey k o with
    | some (Val.obj o2) => getPath (t :: ts) o2
    | _ => none

theorem specNest_cons (k : List Char) (ts : List (List Char)) (v : Val) :
    specNest (k :: ts) v =
      [(k, if ts.isEmpty then v else Val.obj (specNest ts v))] := by
  cases ts <;> simp [specNest]

theorem parseFieldPath_eq (fp : List Char) (v : Val) :
    parseFieldPath fp v = specNest (splitDot fp) v := by
  have H : ∀ n fp, fp.length ≤ n → ∀ v : Val,
      parseFieldPath fp v = specNest (splitDot fp) v := by
    intro n
    induction n with
    | zero =>
      intro fp hfp v
      have hnil : fp = [] := List.length_eq_zero.mp (Nat.le_zero.mp hfp)
      subst hnil
      rw [parseFieldPath]
      simp [splitDot, specNest]
    | succ n ih =>
      intro fp hfp v
      rw [parseFieldPath]
      cases h : splitDot fp with
      | nil => exact absurd h (splitDot_ne_nil fp)
      | cons f0 rest =>
        simp only [List.tail_cons, List.headI]
        by_cases hr : rest = []
        · subst hr
          simp [specNest]
        · rw [dif_pos hr]
          have hlt : (joinDot rest).length < fp.length :=
            joinDot_length_lt fp f0 rest h hr
          have hrec := ih (joinDot rest) (by omega) v
          have hsj : splitDot (joinDot rest) = rest := by
            apply splitDot_joinDot rest hr
            intro s hs
            exact splitDot_no_dot fp s (h ▸ List.mem_cons_of_mem f0 hs)
          rw [hrec, hsj, specNest_cons]
          have hne : ¬rest.isEmpty := by
            cases rest with
            | nil => exact absurd rfl hr
            | cons a as => simp
          simp [hne]
  exact H fp.length fp le_rfl v

theorem getPath_specNest (ss : List (List Char)) (hne : ss ≠ []) (v : Val) :
    getPath ss (specNest ss v) = some v := by
  induction ss with
  | nil => exact absurd rfl hne
  | cons k ts ih =>
    cases ts with
    | nil => simp [specNest, getPath, lookupKey]
    | cons t us => simp [specNest, getPath, lookupKey, ih]

/-- Embedding of the JavaScript object spread `{...a, ...b}` on association
lists with pairwise-distinct keys: keys of `a` first in their order (values
overridden by `b` where `b` also binds the key), then the keys of `b` not
present in `a`, in `b`'s order. -/
def spreadMerge (a b : List (List Char × Val)) : List (List Char × Val) :=
  a.map (fun kv =>
    match lookupKey kv.1 b with
    | some v => (kv.1, v)
    | none => kv) ++
  b.filter (fun kv => (lookupKey kv.1 a).isNone)

/-- Embedding of the field-request loop of the source `getDoc` (and
`getDocs`): each request carries its field path and the per-field value the
snapshot returned for it (`get(fieldPath, options)`); starting from the
empty object, each iteration computes `parseFieldPath(v.fieldPath, data)` —
note the source passes the accumulator `data`, not the retrieved value
`v.data` — and spreads it over the accumulator. -/
def getDocFieldData (reqs : List (List Char × Val)) : List (List Char × Val) :=
  reqs.foldl (fun data r => spreadMerge data (parseFieldPath r.1 (Val.obj data))) []

/-- Modelled from the spec's words (§4.1 and §6): the same loop, but shaping
each requested path applied to the per-field value retrieved from the
snapshot for that path.  For comparison with `getDocFieldData`. -/
def specFieldData (reqs : List (List Char × Val)) : List (List Char × Val) :=
  reqs.foldl (fun data r => spreadMerge data (parseFieldPath r.1 r.2)) []

theorem spreadMerge_nil_left (b : List (List Char × Val)) :
    spreadMerge [] b = b := by
  simp only [spreadMerge, List.map_nil, List.nil_append]
  have : ∀ kv : List Char × Val, (lookupKey kv.1 []).isNone = true := by
    intro kv; rfl
  simp [List.filter_eq_self.mpr (fun kv _ => this kv)]

theorem spreadMerge_single_same (k : List Char) (x1 x2 : Val) :
    spreadMerge [(k, x1)] [(k, x2)] = [(k, x2)] := by
  simp [spreadMerge, lookupKey]

theorem parseFieldPath_head_key (fp : List Char) (v : Val) :
    ∃ x, parseFieldPath fp v = [((splitDot fp).headI, x)] := by
  rw [parseFieldPath_eq]
  cases h : splitDot fp with
  | nil => exact absurd h (splitDot_ne_nil fp)
  | cons f0 rest =>
    rw [specNest_cons]
    exact ⟨_, rfl⟩

/-- The source enum `WriteType`. -/
inductive WriteType where
  | DELETE
  | SET
  | UPDATE
deriving DecidableEq

/-- The source type `Write<T>`: a write kind, an optional payload (`data?`),
and a target document reference. -/
structure Write (R D : Type) where
  type : WriteType
  data : Option D
  ref : R
deriving DecidableEq

/-- An operation queued on a batch object by `batch.set`, `batch.update` or
`batch.delete`. -/
inductive Op (R D : Type) where
  | set (r : R) (d : D)
  | update (r : R) (d : D)
  | del (r : R)
deriving DecidableEq

/-- A JavaScript runtime error; `typeError` models the `TypeError` thrown by
reading a method off `batches[0]` when the `batches` array is empty. -/
inductive JsError where
  | typeError
deriving DecidableEq

/-- Embedding of `batches[0].xxx(...)`: append the operation to the batch at
index 0 of the `batches` array (each batch is its queued-operation list, in
order); on an empty array this is `undefined.xxx(...)`, a thrown
`TypeError`. -/
def appendBatch0 {R D : Type} (batches : List (List (Op R D))) (op : Op R D) :
    Except JsError (List (List (Op R D))) :=
  match batches with
  | [] => Except.error JsError.typeError
  | b :: bs => Except.ok ((b ++ [op]) :: bs)

/-- Embedding of the per-entry body shared by both branches of the source
`writeBatch`: the three sequential `if` statements
`if (type === UPDATE && data) batches[0].update(ref, data)`,
`if (type === DELETE) batches[0].delete(ref)`,
`if (type === SET && data) batches[0].set(ref, data)` (at most one fires,
since `type` is a single enum value). -/
def applyEntry {R D : Type} (batches : List (List (Op R D))) (w : Write R D) :
    Except JsError (List (List (Op R D))) :=
  match w.type, w.data with
  | WriteType.UPDATE, some d => appendBatch0 batches (Op.update w.ref d)
  | WriteType.DELETE, _ => appendBatch0 batches (Op.del w.ref)
  | WriteType.SET, some d => appendBatch0 batches (Op.set w.ref d)
  | _, _ => Except.ok batches

/-- The `for (const {data, ref, type} of ...)` loop over a list of write
entries, threading the `batches` array and propagating a thrown error. -/
def applyEntries {R D : Type} (batches : List (List (Op R D))) :
    List (Write R D) → Except JsError (List (List (Op R D)))
  | [] => Except.ok batches
  | w :: ws =>
    match applyEntry batches w with
    | Except.error e => Except.error e
    | Except.ok bs => applyEntries bs ws

/-- Embedding of lodash `chunk(xs, 500)`: consecutive chunks of at most 500
entries, the last possibly shorter; `chunk([], 500)` is `[]`. -/
def chunk500 {A : Type} : List A → List (List A)
  | [] => []
  | x :: xs => ((x :: xs).take 500) :: chunk500 ((x :: xs).drop 500)
termination_by xs => xs.length
decreasing_by
  simp only [List.length_drop, List.length_cons]
  omega

/-- The `for (const chunk of chunkWrites)` loop of the source `writeBatch`:
for each chunk, a fresh empty batch object is created (`writeDocs(fs)`), the
chunk's entries are applied — to `batches[0]`, per `applyEntry` — and then
the fresh batch (still empty, since no entry ever targets it directly) is
pushed onto the `batches` array. -/
def runChunks {R D : Type} (batches : List (List (Op R D))) :
    List (List (Write R D)) → Except JsError (List (List (Op R D)))
  | [] => Except.ok batches
  | ch :: chs =>
    match applyEntries batches ch with
    | Except.error e => Except.error e
    | Except.ok bs => runChunks (bs ++ [[]]) chs

/-- Embedding of the source `writeBatch(fs, writes)` up to the commit stage:
the final contents of the `batches` array (one entry per pushed batch object,
each with its queued operations in order), or the thrown `TypeError`.  When
`writes.length > 500` the list is chunked and the chunk loop runs; when
`writes.length <= 500` the entry loop runs directly — with no batch object
ever created or pushed. -/
def writeBatchImpl {R D : Type} (writes : List (Write R D)) :
    Except JsError (List (List (Op R D))) :=
  if writes.length > 500 then
    runChunks [] (chunk500 writes)
  else
    applyEntries [] writes

/-- Deterministic embedding of `Promise.all` over already-settled commit
outcomes: the first rejection (in order) rejects the whole, otherwise all
fulfilment values are collected in order. -/
def promiseAll {E A : Type} : List (Except E A) → Except E (List A)
  | [] => Except.ok []
  | Except.error e :: _ => Except.error e
  | Except.ok a :: rest =>
    match promiseAll rest with
    | Except.error e => Except.error e
    | Except.ok as => Except.ok (a :: as)

/-- First rejection among a list of settled outcomes. -/
def firstError {E A : Type} : List (Except E A) → Option E
  | [] => none
  | Except.error e :: _ => some e
  | Except.ok _ :: rest => firstError rest

/-- The full source `writeBatch(fs, writes)`: build the batches, then
`Promise.all(batches.map((batch) => batch.commit()))`, where `commitRes i`
is the outcome the external store gives the `i`-th batch's commit.  A thrown
`TypeError` surfaces on the left, a rejected commit on the right. -/
def writeBatchRun {R D E : Type} (commitRes : Nat → Except E Unit)
    (writes : List (Write R D)) : Except (JsError ⊕ E) (List Unit) :=
  match writeBatchImpl writes with
  | Except.error j => Except.error (Sum.inl j)
  | Except.ok bs =>
    match promiseAll ((List.range bs.length).map commitRes) with
    | Except.error e => Except.error (Sum.inr e)
    | Except.ok l => Except.ok l

/-- Observable behaviour of a listener wrapper: the invocations it made of
the external `onSnapshot` (target plus forwarded callback object), and the
value the wrapper itself returns to its caller — `none` models the
JavaScript `undefined` of a function body with no `return` statement. -/
structure ListenOutcome (T C H : Type) where
  calls : List (T × C)
  ret : Option H
deriving DecidableEq

/-- Embedding of the source `listenDoc(ref, cb)`: it calls
`onSnapshot(ref, {complete: cb.complete, error: cb.error, next: cb.next})`
(the callback object is rebuilt field by field, hence forwarded unchanged)
and has no `return` statement, so the registration handle `onSnap ref cb`
produced by the external call is discarded and the wrapper returns
`undefined`. -/
def listenDoc {R C H : Type} (onSnap : R → C → H) (ref : R) (cb : C) :
    ListenOutcome R C H :=
  let _handle := onSnap ref cb
  { calls := [(ref, cb)], ret := none }

/-- Embedding of the source `listenDocs(query, cb)`: same shape as
`listenDoc`, over a query. -/
def listenDocs {Q C H : Type} (onSnap : Q → C → H) (q : Q) (cb : C) :
    ListenOutcome Q C H :=
  let _handle := onSnap q cb
  { calls := [(q, cb)], ret := none }

/-- The underlying deletion call issued by `delDoc`: `deleteDoc(ref)`,
determined by the document reference alone. -/
structure DeletionCall (R : Type) where
  ref : R
deriving DecidableEq

/-- Embedding of the source `delDoc(fs, ref)`: `return deleteDoc(ref)` — the
database-handle argument `fs` is never used. -/
def delDoc {FS R : Type} (_fs : FS) (ref : R) : DeletionCall R :=
  { ref := ref }

theorem promiseAll_of_firstError_some {E A : Type} (l : List (Except E A))
    (e : E) (h : firstError l = some e) : promiseAll l = Except.error e := by
  induction l with
  | nil => simp [firstError] at h
  | cons x rest ih =>
    cases x with
    | error e2 =>
      simp only [firstError, Option.some.injEq] at h
      simp [promiseAll, h]
    | ok a =>
      simp only [firstError] at h
      simp [promiseAll, ih h]

theorem promiseAll_of_firstError_none {E A : Type} (l : List (Except E A))
    (h : firstError l = none) :
    promiseAll l = Except.ok (l.filterMap (fun x => x.toOption)) := by
  induction l with
  | nil => simp [promiseAll]
  | cons x rest ih =>
    cases x with
    | error e2 => simp [firstError] at h
    | ok a =>
      simp only [firstError] at h
      simp [promiseAll, ih h, Except.toOption, List.filterMap_cons]

/-- A `Set` write with no payload: a per-entry no-op for the source loop. -/
def wSetNone : Write Nat Nat := { type := WriteType.SET, data := none, ref := 0 }

/-- A `Delete` write targeting document reference `0`. -/
def wDel : Write Nat Nat := { type := WriteType.DELETE, data := none, ref := 0 }

/-- 501 payload-less `Set` writes: takes the chunked branch (two chunks)
while queueing no operation, so batch construction succeeds. -/
def w501 : List (Write Nat Nat) := List.replicate 500 wSetNone ++ [wSetNone]

/-- 500 payload-less `Set` writes followed by one `Delete`: the delete is
the first entry that actually queues an operation, and it belongs to the
second chunk. -/
def w501del : List (Write Nat Nat) := List.replicate 500 wSetNone ++ [wDel]

/-- A commit oracle whose first batch commit rejects with error `7` and all
others fulfil. -/
def cres : Nat → Except Nat Unit :=
  fun i => if i = 0 then Except.error 7 else Except.ok ()

/-- A handle producer standing in for the external `onSnapshot`, returning
registration handle `5`. -/
def onSnapToy : Nat → Nat → Nat := fun _ _ => 5

theorem applyEntry_wSetNone (bs : List (List (Op Nat Nat))) :
    applyEntry bs wSetNone = Except.ok bs := rfl

theorem applyEntries_replicate_wSetNone (n : Nat) (bs : List (List (Op Nat Nat))) :
    applyEntries bs (List.replicate n wSetNone) = Except.ok bs := by
  induction n with
  | zero => rfl
  | succ n ih =>
    rw [List.replicate_succ]
    simp [applyEntries, applyEntry_wSetNone, ih]

theorem chunk500_eq_of_ne {A : Type} (xs : List A) (h : xs ≠ []) :
    chunk500 xs = xs.take 500 :: chunk500 (xs.drop 500) := by
  cases xs with
  | nil => exact absurd rfl h
  | cons a as => simp [chunk500]

theorem chunk500_nil {A : Type} : chunk500 ([] : List A) = [] := by
  simp [chunk500]

theorem chunk500_two_chunks {A : Type} (xs ys : List A) (hx : xs.length = 500)
    (hy0 : ys ≠ []) (hy : ys.length ≤ 500) : chunk500 (xs ++ ys) = [xs, ys] := by
  rw [chunk500_eq_of_ne]
  · rw [List.take_left' hx, List.drop_left' hx]
    rw [chunk500_eq_of_ne ys hy0]
    rw [List.take_of_length_le hy, List.drop_eq_nil_of_le hy, chunk500_nil]
  · cases xs with
    | nil => simp at hx
    | cons a as => simp

theorem length_replicate_500 {A : Type} (a : A) :
    (List.replicate 500 a).length = 500 := List.length_replicate 500 a

theorem writeBatchImpl_w501 : writeBatchImpl w501 = Except.ok [[], []] := by
  have hlen : w501.length = 501 := by
    rw [w501, List.length_append, length_replicate_500]
    rfl
  have hchunks : chunk500 w501 = [List.replicate 500 wSetNone, [wSetNone]] := by
    rw [w501]
    apply chunk500_two_chunks
    · exact length_replicate_500 wSetNone
    · intro hcon
      exact List.cons_ne_nil wSetNone [] hcon
    · exact Nat.le_of_lt (by norm_num)
  simp only [writeBatchImpl, hlen]
  rw [if_pos (by omega), hchunks]
  simp only [runChunks, applyEntries_replicate_wSetNone, List.nil_append]
  simp only [applyEntries, applyEntry_wSetNone, runChunks]
  rfl

theorem applyEntry_wDel_nil :
    applyEntry ([] : List (List (Op Nat Nat))) wDel = Except.error JsError.typeError := rfl

theorem take_500_cons {A : Type} (a : A) (l : List A) :
    (a :: l).take 500 = a :: l.take 499 := rfl

theorem writeBatchImpl_w501del :
    writeBatchImpl w501del = Except.ok [[Op.del 0], []] := by
  have hlen : w501del.length = 501 := by
    rw [w501del, List.length_append, length_replicate_500]
    rfl
  have hchunks : chunk500 w501del = [List.replicate 500 wSetNone, [wDel]] := by
    rw [w501del]
    apply chunk500_two_chunks
    · exact length_replicate_500 wSetNone
    · intro hcon
      exact List.cons_ne_nil wDel [] hcon
    · exact Nat.le_of_lt (by norm_num)
  simp only [writeBatchImpl, hlen]
  rw [if_pos (by omega), hchunks]
  simp only [runChunks, applyEntries_replicate_wSetNone, List.nil_append]
  simp only [applyEntries, runChunks]
  rfl

theorem writeBatchImpl_rep501del :
    writeBatchImpl (List.replicate 501 wDel) = Except.error JsError.typeError := by
  have hlen : (List.replicate 501 wDel).length = 501 := List.length_replicate 501 wDel
  have hsplit : List.replicate 501 wDel = wDel :: List.replicate 500 wDel := by
    rw [show (501 : Nat) = 500 + 1 from rfl, List.replicate_succ]
  simp only [writeBatchImpl, hlen]
  rw [if_pos (by omega), hsplit]
  rw [chunk500_eq_of_ne _ (List.cons_ne_nil wDel _), take_500_cons]
  simp only [runChunks, applyEntries, applyEntry_wDel_nil]

/-- C1.  The claim says `writeBatch` issues exactly 1, 1, 1, 2, 2 batch
commits for write lists of length 0, 1, 500, 501, 1000.  The code refutes
it: for the empty list no batch is ever created or pushed (the `<= 500`
branch never calls `writeDocs`), so zero commits are issued; and for a
one-entry list the very first queued operation dereferences `batches[0]` of
the still-empty `batches` array and throws a `TypeError`, so no commit is
issued at all. -/
theorem writeBatch_commit_count_bug :
    writeBatchImpl ([] : List (Write Nat Nat)) = Except.ok [] ∧
    writeBatchImpl [wDel] = Except.error JsError.typeError :=
  ⟨rfl, rfl⟩

/-- C2.  The claim says `getDoc`'s field-request loop shapes each requested
path applied to the per-field value retrieved from the snapshot.  The code
refutes it: the loop passes the running accumulator `data` — not the
retrieved value `v.data` — to `parseFieldPath`, so for a single request
with path `"a"` and retrieved value `42` the code produces `{a: {}}`
(the empty initial accumulator nested under the path) while the §4.1
contract produces `{a: 42}`. -/
theorem getDoc_field_shaping_bug :
    getDocFieldData [(['a'], Val.leaf 42)] = [(['a'], Val.obj [])] ∧
    specFieldData [(['a'], Val.leaf 42)] = [(['a'], Val.leaf 42)] := by
  constructor
  · simp only [getDocFieldData, List.foldl]
    rw [spreadMerge_nil_left, parseFieldPath_eq]
    rfl
  · simp only [specFieldData, List.foldl]
    rw [spreadMerge_nil_left, parseFieldPath_eq]
    rfl

/-- C3.  For any non-empty dot-free key `k` and value `v`,
`parseFieldPath k v` is exactly `{k: v}`; and for any multi-segment path
`joinDot ss` (dot-free segments `ss`), the result is the nested mapping
`{s0: {s1: ... {sn: v}}}` (`specNest ss v`), with `v` reachable at nesting
depth equal to the number of path segments. -/
theorem parseFieldPath_shape (k : List Char) (v : Val) (ss : List (List Char))
    (hk : k ≠ []) (hkd : '.' ∉ k) (hss : ss ≠ []) (hsd : ∀ s ∈ ss, '.' ∉ s) :
    parseFieldPath k v = [(k, v)] ∧
    parseFieldPath (joinDot ss) v = specNest ss v ∧
    getPath ss (specNest ss v) = some v := by
  refine ⟨?_, ?_, getPath_specNest ss hss v⟩
  · rw [parseFieldPath_eq, splitDot_of_no_dot k hkd]
    rfl
  · rw [parseFieldPath_eq, splitDot_joinDot ss hss hsd]

theorem parseFieldPath_shape_witness :
    parseFieldPath ['x'] (Val.leaf 1) = [(['x'], Val.leaf 1)] ∧
    parseFieldPath (joinDot [['a'], ['b'], ['c']]) (Val.leaf 1) =
      specNest [['a'], ['b'], ['c']] (Val.leaf 1) ∧
    getPath [['a'], ['b'], ['c']] (specNest [['a'], ['b'], ['c']] (Val.leaf 1)) =
      some (Val.leaf 1) :=
  parseFieldPath_shape ['x'] (Val.leaf 1) [['a'], ['b'], ['c']]
    (by decide) (by decide) (by decide) (by decide)

/-- C4.  The claim says operations are appended only to each chunk's own
distinct batch object, reproducing input order across batches.  The code
refutes it: every queued operation targets `batches[0]`.  With 500
payload-less `Set` entries (which queue nothing) followed by one `Delete`,
the second chunk's delete lands in the first chunk's batch and the second
batch stays empty; and with 501 ordinary `Delete` entries the first chunk's
first operation throws a `TypeError` because `batches` is still empty. -/
theorem writeBatch_chunk_conflation_bug :
    writeBatchImpl w501del = Except.ok [[Op.del 0], []] ∧
    writeBatchImpl (List.replicate 501 wDel) = Except.error JsError.typeError :=
  ⟨writeBatchImpl_w501del, writeBatchImpl_rep501del⟩

/-- C5.  Conditioned on batch construction succeeding (final `batches`
contents `bs`), the commit stage is
`Promise.all(batches.map((batch) => batch.commit()))`: if some chunk's
commit rejects, the whole `writeBatch` call rejects with the first rejected
chunk's failure; if every chunk's commit fulfils, the call resolves with
the list of fulfilment values. -/
theorem writeBatch_surfaces_commit_failure {R D E : Type}
    (writes : List (Write R D)) (commitRes : Nat → Except E Unit)
    (bs : List (List (Op R D))) (e : E)
    (h : writeBatchImpl writes = Except.ok bs) :
    (firstError ((List.range bs.length).map commitRes) = some e →
      writeBatchRun commitRes writes = Except.error (Sum.inr e)) ∧
    (firstError ((List.range bs.length).map commitRes) = none →
      writeBatchRun commitRes writes =
        Except.ok (((List.range bs.length).map commitRes).filterMap
          (fun x => x.toOption))) := by
  constructor
  · intro hf
    simp only [writeBatchRun, h]
    rw [promiseAll_of_firstError_some _ e hf]
  · intro hf
    simp only [writeBatchRun, h]
    rw [promiseAll_of_firstError_none _ hf]

theorem writeBatch_surfaces_commit_failure_witness :
    writeBatchImpl w501 = Except.ok [[], []] ∧
    writeBatchRun cres w501 = Except.error (Sum.inr 7) :=
  ⟨writeBatchImpl_w501,
    (writeBatch_surfaces_commit_failure w501 cres [[], []] 7
      writeBatchImpl_w501).1 rfl⟩

/-- C7.  A `Set` or `Update` write whose payload is absent queues no
operation and raises no error (the per-entry step returns the `batches`
state unchanged), while a `Delete` write queues its delete regardless of
any payload: its behaviour never requires one. -/
theorem writeBatch_absent_payload_noop {R D : Type}
    (bs : List (List (Op R D))) (w : Write R D) (r : R) (d : Option D)
    (h1 : w.type = WriteType.SET ∨ w.type = WriteType.UPDATE)
    (h2 : w.data = none) :
    applyEntry bs w = Except.ok bs ∧
    applyEntry bs { type := WriteType.DELETE, data := d, ref := r } =
      appendBatch0 bs (Op.del r) := by
  constructor
  · rcases h1 with h1 | h1 <;>
      · unfold applyEntry
        rw [h1, h2]
  · rfl

theorem writeBatch_absent_payload_noop_witness :
    applyEntry [([] : List (Op Nat Nat))] wSetNone = Except.ok [[]] ∧
    applyEntry [([] : List (Op Nat Nat))]
        { type := WriteType.DELETE, data := some 3, ref := 9 } =
      appendBatch0 [[]] (Op.del 9) :=
  writeBatch_absent_payload_noop [[]] wSetNone 9 (some 3)
    (Or.inl (by decide)) (by decide)

/-- C8.  For every non-empty path string, `parseFieldPath` terminates (it
is a total function) and returns the nested chain keyed by exactly the
split segments — including empty-string keys for leading, trailing or
double dots — with the data value reachable under that key chain. -/
theorem parseFieldPath_total_shape (fp : List Char) (v : Val) (h : fp ≠ []) :
    parseFieldPath fp v = specNest (splitDot fp) v ∧
    getPath (splitDot fp) (parseFieldPath fp v) = some v := by
  refine ⟨parseFieldPath_eq fp v, ?_⟩
  rw [parseFieldPath_eq]
  exact getPath_specNest (splitDot fp) (splitDot_ne_nil fp) v

theorem parseFieldPath_total_shape_witness :
    parseFieldPath ['.', 'a', '.'] (Val.leaf 2) =
      specNest (splitDot ['.', 'a', '.']) (Val.leaf 2) ∧
    getPath (splitDot ['.', 'a', '.'])
        (parseFieldPath ['.', 'a', '.'] (Val.leaf 2)) =
      some (Val.leaf 2) :=
  parseFieldPath_total_shape ['.', 'a', '.'] (Val.leaf 2) (by decide)

/-- C9.  In `getDoc`'s field-request loop, when two shaped field paths
share their first segment, the spread-merge is shallow: the later entry's
single-key object entirely replaces the earlier entry's top-level binding,
so the merged result is exactly the later entry's shaping (at that loop
step) — only the last-processed path survives at the shared top-level
key. -/
theorem getDoc_shallow_merge_overwrite (fp1 fp2 : List Char) (v1 v2 : Val)
    (h : (splitDot fp1).headI = (splitDot fp2).headI) :
    getDocFieldData [(fp1, v1), (fp2, v2)] =
      parseFieldPath fp2 (Val.obj (getDocFieldData [(fp1, v1)])) := by
  have hd1 : getDocFieldData [(fp1, v1)] = parseFieldPath fp1 (Val.obj []) := by
    simp only [getDocFieldData, List.foldl]
    exact spreadMerge_nil_left _
  have hd2 : getDocFieldData [(fp1, v1), (fp2, v2)] =
      spreadMerge (parseFieldPath fp1 (Val.obj []))
        (parseFieldPath fp2 (Val.obj (parseFieldPath fp1 (Val.obj [])))) := by
    simp only [getDocFieldData, List.foldl]
    rw [spreadMerge_nil_left]
  obtain ⟨x1, h1⟩ := parseFieldPath_head_key fp1 (Val.obj [])
  obtain ⟨x2, h2⟩ := parseFieldPath_head_key fp2
    (Val.obj (parseFieldPath fp1 (Val.obj [])))
  rw [hd2, hd1, h2, h1, h, spreadMerge_single_same]

theorem getDoc_shallow_merge_overwrite_witness :
    getDocFieldData [(['a', '.', 'b'], Val.leaf 1), (['a', '.', 'c'], Val.leaf 2)] =
      parseFieldPath ['a', '.', 'c']
        (Val.obj (getDocFieldData [(['a', '.', 'b'], Val.leaf 1)])) :=
  getDoc_shallow_merge_overwrite ['a', '.', 'b'] ['a', '.', 'c']
    (Val.leaf 1) (Val.leaf 2) (by decide)

/-- C10.  `delDoc`'s behaviour is independent of its database-handle
argument: for any two handles the identical underlying deletion call is
performed, determined by the document reference alone. -/
theorem delDoc_ignores_db_handle {FS R : Type} (fs1 fs2 : FS) (ref : R) :
    delDoc fs1 ref = delDoc fs2 ref ∧ delDoc fs1 ref = { ref := ref } :=
  ⟨rfl, rfl⟩

/-- C6, counterexample.  The claim says `listenDoc` (and `listenDocs`)
return the registration handle produced by the underlying
snapshot-subscription call.  With a handle producer returning handle `5`,
the wrapper's returned value is `undefined` (`none`), not the handle. -/
theorem listen_handle_counterexample :
    (listenDoc onSnapToy 0 0).ret ≠ some (onSnapToy 0 0) ∧
    (listenDocs onSnapToy 0 0).ret ≠ some (onSnapToy 0 0) :=
  ⟨fun hcon => Option.noConfusion hcon, fun hcon => Option.noConfusion hcon⟩

/-- C6, amended.  `listenDoc` and `listenDocs` invoke the underlying
snapshot-subscription call once with the given target and the forwarded
callback object, but discard the registration handle it produces: their
function bodies have no `return` statement, so the caller receives
`undefined` and no handle. -/
theorem listen_discards_handle {R Q C H : Type} (onSnapD : R → C → H)
    (onSnapQ : Q → C → H) (ref : R) (q : Q) (cb : C) :
    (listenDoc onSnapD ref cb).calls = [(ref, cb)] ∧
    (listenDoc onSnapD ref cb).ret = none ∧
    (listenDocs onSnapQ q cb).calls = [(q, cb)] ∧
    (listenDocs onSnapQ q cb).ret = none :=
  ⟨rfl, rfl, rfl, rfl⟩
